import Mathlib

/-!
Verification of the datadriven golden-file test harness (`src/lib.rs`).

The Rust source is shallowly embedded: strings are `List Char`, the directive
parser and the line scanner are executable functions, the argument map is an
association list (the Rust `HashMap` has unique keys and unspecified order,
which the list model respects because the parser rejects duplicate keys), and
errors are an explicit `DDErr` type mirroring `DataDrivenError`.
-/

namespace Datadriven

abbrev Str := List Char

/-- Model of Rust `char::is_ascii_whitespace`: space, tab, line feed, form
feed and carriage return. -/
def is_ascii_whitespace (c : Char) : Bool :=
  c = ' ' || c = '\t' || c = '\n' || c = '\x0C' || c = '\x0D'

/-- Model of Rust `char::is_whitespace` (the Unicode `White_Space` property,
a fixed list of 25 code points). -/
def rust_is_whitespace (c : Char) : Bool :=
  let n := c.toNat
  (0x09 ≤ n && n ≤ 0x0D) || n = 0x20 || n = 0x85 || n = 0xA0 || n = 0x1680 ||
  (0x2000 ≤ n && n ≤ 0x200A) || n = 0x2028 || n = 0x2029 || n = 0x202F ||
  n = 0x205F || n = 0x3000

/-- Model of Rust `char::is_alphanumeric` from the standard library (not part
of this repository's source): it holds for every Unicode alphabetic or numeric
character. The model is exact on the ASCII range (A-Z, a-z, 0-9) and on the
Latin-1 supplement (aa, b5, ba, the superscript and fraction numerics b2, b3,
b9, bc-be, and the letters c0-d6, d8-f6, f8-ff); code points above U+00FF are
modelled as non-alphanumeric and the universally quantified theorems below
restrict their scope to code points at most U+00FF accordingly. -/
def rust_is_alphanumeric (c : Char) : Bool :=
  let n := c.toNat
  if n < 0x80 then c.isAlphanum
  else n = 0xAA || n = 0xB5 || n = 0xBA || (0xB2 ≤ n && n ≤ 0xB3) || n = 0xB9 ||
       (0xBC ≤ n && n ≤ 0xBE) || (0xC0 ≤ n && n ≤ 0xD6) ||
       (0xD8 ≤ n && n ≤ 0xF6) || (0xF8 ≤ n && n ≤ 0xFF)

/-- `DirectiveParser::is_wordchar`. -/
def is_wordchar (c : Char) : Bool :=
  rust_is_alphanumeric c || c = '-' || c = '_' || c = '.'

/-- `line.trim() == ""` for Rust's Unicode-aware `str::trim`. -/
def is_blank (l : Str) : Bool :=
  l.all rust_is_whitespace

/-- `DirectiveParser::munch`: skip ASCII whitespace. -/
def munch (s : Str) : Str :=
  s.dropWhile is_ascii_whitespace

/-- Model of `DataDrivenError`. The `Io` variant is omitted: file reading is
an external collaborator and never produced by the embedded core. -/
inductive DDErr where
  | parse (msg : Str)
  | argument (msg : Str)
  | withContext (line : Nat) (filename : Str) (inner : DDErr)
  | didntUseAllArguments (keys : List Str)
deriving DecidableEq, Repr

/-- `DataDrivenError::with_line`. -/
def DDErr.with_line (e : DDErr) (line : Nat) : DDErr :=
  match e with
  | .withContext _ filename inner => .withContext line filename inner
  | e => .withContext line [] e

/-- The `{:?}` rendering of the keys of a `Vec<String>`, element list only. -/
def debugKeys : List Str → Str
  | [] => []
  | [k] => ("\x22").data ++ k ++ ("\x22").data
  | k :: rest => ("\x22").data ++ k ++ ("\x22, ").data ++ debugKeys rest

/-- `Display` for `DataDrivenError` (the `thiserror` format strings). -/
def DDErr.display : DDErr → Str
  | .parse m => ("parsing: ").data ++ m
  | .argument m => ("argument: ").data ++ m
  | .withContext line filename inner =>
      filename ++ (":").data ++ (Nat.repr line).data ++ (": ").data ++ inner.display
  | .didntUseAllArguments ks =>
      ("didn\x27t use all arguments: [").data ++ debugKeys ks ++ ("]").data

/-- `DirectiveParser::parse_word`: take the maximal run of word characters,
fail if it is empty, then munch trailing whitespace. -/
def parse_word (context : Str) (s : Str) : Except DDErr (Str × Str) :=
  let w := s.takeWhile is_wordchar
  if w.isEmpty then
    match s.head? with
    | some ch => .error (.parse (("expected ").data ++ context ++ (", got ").data ++ [ch]))
    | none => .error (.parse (("expected ").data ++ context ++ (" but directive line ended").data))
  else .ok (w, munch (s.dropWhile is_wordchar))

/-- The `match self.peek()` at the end of `DirectiveParser::parse_vals`:
a closing paren is consumed (followed by a munch), anything else errors. -/
def vals_close (vals : List Str) (s : Str) : Except DDErr (List Str × Str) :=
  match s.head? with
  | some ')' => .ok (vals, munch s.tail)
  | some ch =>
      .error (.parse (("expected \x27,\x27 or \x27)\x27, got \x27").data ++ [ch] ++ ("\x27").data))
  | none => .error (.parse ("expected \x27,\x27 or \x27\x27, but directive line ended").data)

/-- The value-list loop of `DirectiveParser::parse_vals`: while the next char
is not a closing paren, parse a word; stop when no comma follows. The fuel
argument only bounds the recursion; the parser consumes at least one character
per iteration, so fuel of at least two more than the input length never runs
out. -/
def vals_loop (fuel : Nat) (s : Str) : Except DDErr (List Str × Str) :=
  match fuel with
  | 0 => .error (.parse ("model out of fuel").data)
  | fuel + 1 =>
    if s.head? = some ')' then vals_close [] s
    else
      match parse_word (("argument value").data) s with
      | .error e => .error e
      | .ok (w, r) =>
        if r.head? = some ',' then
          match vals_loop fuel (munch r.tail) with
          | .error e => .error e
          | .ok (vs, r2) => .ok (w :: vs, r2)
        else vals_close [w] r

/-- `DirectiveParser::parse_vals`: the leading `=`, then either a single word
or a parenthesized comma-separated list. -/
def parse_vals (fuel : Nat) (s : Str) : Except DDErr (List Str × Str) :=
  match s.head? with
  | some '=' =>
    let r := munch s.tail
    match r.head? with
    | some '(' => vals_loop fuel (munch r.tail)
    | _ =>
      match parse_word (("argument value").data) r with
      | .error e => .error e
      | .ok (w, r2) => .ok ([w], r2)
  | _ => .ok ([], s)

/-- `DirectiveParser::parse_arg`. -/
def parse_arg (fuel : Nat) (s : Str) : Except DDErr ((Str × List Str) × Str) :=
  match parse_word (("argument name").data) s with
  | .error e => .error e
  | .ok (name, r) =>
    match parse_vals fuel r with
    | .error e => .error e
    | .ok (vals, r2) => .ok ((name, vals), r2)

/-- The argument loop of `DirectiveParser::parse_directive`: parse arguments
until the end of the line, rejecting duplicate names. -/
def args_loop (fuel : Nat) (args : List (Str × List Str)) (s : Str) :
    Except DDErr (List (Str × List Str)) :=
  match fuel with
  | 0 => .error (.parse ("model out of fuel").data)
  | fuel + 1 =>
    if s.isEmpty then .ok args
    else
      match parse_arg fuel s with
      | .error e => .error e
      | .ok ((name, vals), r) =>
        if (args.find? (fun p => p.1 = name)).isSome then
          .error (.parse (("duplicate argument: ").data ++ name))
        else args_loop fuel (args ++ [(name, vals)]) r

/-- `DirectiveParser::parse_directive`. The argument map is kept as an
association list in insertion order; the duplicate check keeps keys unique. -/
def parse_directive (s : Str) : Except DDErr (Str × List (Str × List Str)) :=
  let s1 := munch s
  match parse_word (("directive").data) s1 with
  | .error e => .error e
  | .ok (directive, r) =>
    match args_loop (r.length + 1) [] r with
    | .error e => .error e
    | .ok args => .ok (directive, args)

end Datadriven

deriving instance DecidableEq for Except

namespace Datadriven

/-- The argument map of a test case. Rust uses `HashMap<String, Vec<String>>`;
keys are unique (the directive parser rejects duplicates), so an association
list with whole-key removal is a faithful model. -/
abbrev Args := List (Str × List Str)

/-- Lookup in the argument map (`HashMap::get`-like view of `remove`). -/
def args_lookup (arg : Str) (m : Args) : Option (List Str) :=
  (m.find? (fun p => p.1 = arg)).map (fun p => p.2)

/-- Removal from the argument map (`HashMap::remove`). -/
def args_remove (arg : Str) (m : Args) : Args :=
  m.filter (fun p => p.1 ≠ arg)

/-- `TestCase`. -/
structure TestCase where
  directive : Str
  args : Args
  input : Str
  directive_line : Str
  expected : Str
  line_number : Nat
deriving DecidableEq, Repr

/-- `TestCase::take_flag`. The map is the state: it is removed from first,
so the entry is consumed even when the call errors. -/
def take_flag (arg : Str) (m : Args) : Except DDErr Bool × Args :=
  let contents := args_lookup arg m
  let m2 := args_remove arg m
  match contents with
  | some vs =>
    if vs.isEmpty then (.ok true, m2)
    else (.error (.argument (("must be no arguments to take_flag, ").data ++ arg ++
            (" had ").data ++ (Nat.repr vs.length).data)), m2)
  | none => (.ok false, m2)

/-- `TestCase::try_take_arg`, parameterized by the `FromStr` parser of the
target type. -/
def try_take_arg {T : Type} (parseT : Str → Except Str T) (arg : Str) (m : Args) :
    Except DDErr (Option T) × Args :=
  let contents := args_lookup arg m
  let m2 := args_remove arg m
  match contents with
  | some vs =>
    match vs with
    | [] => (.ok none, m2)
    | [v] =>
      match parseT v with
      | .ok t => (.ok (some t), m2)
      | .error e => (.error (.argument (("couldn\x27t parse: ").data ++ e)), m2)
    | _ => (.error (.argument (("must be exactly one argument to take_arg, ").data ++ arg ++
              (" had ").data ++ (Nat.repr vs.length).data)), m2)
  | none => (.ok none, m2)

/-- `TestCase::take_arg`: delegate to `try_take_arg`, then fail on absence. -/
def take_arg {T : Type} (parseT : Str → Except Str T) (arg : Str) (m : Args) :
    Except DDErr T × Args :=
  match try_take_arg parseT arg m with
  | (.ok (some t), m2) => (.ok t, m2)
  | (.ok none, m2) => (.error (.argument (("no argument named ").data ++ arg)), m2)
  | (.error e, m2) => (.error e, m2)

/-- The `collect` over per-value parses inside `try_take_args` (first error
wins, wrapped as `DataDrivenError::Parse`). -/
def mapParse {T : Type} (parseT : Str → Except Str T) : List Str → Except DDErr (List T)
  | [] => .ok []
  | v :: rest =>
    match parseT v with
    | .error e => .error (.parse (("couldn\x27t parse: ").data ++ e))
    | .ok t =>
      match mapParse parseT rest with
      | .error e => .error e
      | .ok ts => .ok (t :: ts)

/-- `TestCase::try_take_args`. -/
def try_take_args {T : Type} (parseT : Str → Except Str T) (arg : Str) (m : Args) :
    Except DDErr (Option (List T)) × Args :=
  let contents := args_lookup arg m
  let m2 := args_remove arg m
  match contents with
  | some vs =>
    match mapParse parseT vs with
    | .ok ts => (.ok (some ts), m2)
    | .error e => (.error e, m2)
  | none => (.ok none, m2)

/-- `TestCase::take_args`: delegate to `try_take_args`, remapping its error
through `Display` and failing on absence. -/
def take_args {T : Type} (parseT : Str → Except Str T) (arg : Str) (m : Args) :
    Except DDErr (List T) × Args :=
  match try_take_args parseT arg m with
  | (.error e, m2) => (.error (.argument (("couldn\x27t parse: ").data ++ e.display)), m2)
  | (.ok (some ts), m2) => (.ok ts, m2)
  | (.ok none, m2) => (.error (.argument (("no argument named ").data ++ arg)), m2)

/-- `TestCase::expect_empty`. -/
def expect_empty (m : Args) : Except DDErr Unit :=
  if m.isEmpty then .ok ()
  else .error (.didntUseAllArguments (m.map (fun p => p.1)))

/-- `Stanza`. -/
inductive Stanza where
  | test (t : TestCase)
  | comment (c : Str)
deriving DecidableEq, Repr

/-- Rust `str::split_inclusive('\n')`: pieces keep their trailing newline;
the final piece may lack one; the empty string has no pieces. -/
def splitInclNl : Str → List Str
  | [] => []
  | c :: rest =>
    if c = '\n' then ['\n'] :: splitInclNl rest
    else
      match splitInclNl rest with
      | [] => [[c]]
      | h :: t => (c :: h) :: t

/-- The per-piece map of Rust `str::lines`: strip one trailing `\n`, and a
trailing `\r` only when a `\n` was stripped. -/
def lineMap (p : Str) : Str :=
  if p.getLast? = some '\n' then
    let q := p.dropLast
    if q.getLast? = some '\x0D' then q.dropLast else q
  else p

/-- Rust `str::lines`. -/
def rlines (s : Str) : List Str :=
  (splitInclNl s).map lineMap

/-- Join lines back, newline-terminating each (the scanner's `push_str` plus
`push('\n')` accumulation). -/
def joinNl : List Str → Str
  | [] => []
  | l :: rest => l ++ '\n' :: joinNl rest

/-- The line `----`. -/
def dashes : Str := ("----").data

/-- The line `---- (no newline)`. -/
def noNewlineMark : Str := ("---- (no newline)").data

/-- Truncation of a line at the first `#` (`take_while(|c| *c != '#')`). -/
def truncHash (l : Str) : Str :=
  l.takeWhile (fun c => c ≠ '#')

/-- The non-blank-mode expected slurp of `TestFile::parse`: collect lines
until a line that trims to empty or end of input; the terminator line is left
in the remainder (the caller skips one line afterwards). -/
def scan_plain : List Str → Str × List Str
  | [] => ([], [])
  | l :: rest =>
    if is_blank l then ([], l :: rest)
    else
      let (e, r) := scan_plain rest
      (l ++ '\n' :: e, r)

/-- The `expected.pop()` after the `---- (no newline)` terminator. -/
def strip_last_nl (e : Str) : Str :=
  if e.getLast? = some '\n' then e.dropLast else e

/-- The parse error for an unclosed double-separator block. -/
def unclosedMsg (line_number : Nat) : DDErr :=
  .parse (("unclosed double-separator block for test case starting at line ").data ++
    (Nat.repr line_number).data)

/-- The blank-mode expected slurp of `TestFile::parse`: with fewer than two
lines remaining inside the loop it errors; a `----` line followed by `----`
or by `---- (no newline)` terminates (the latter stripping one trailing
newline); otherwise the line is collected. With no lines at all the loop body
never runs and the expected text collected so far is returned. -/
def scan_blank (start_line : Nat) (acc : Str) : List Str → Except DDErr (Str × List Str)
  | [] => .ok (acc, [])
  | [_] => .error (unclosedMsg start_line)
  | a :: b :: rest =>
    if a = dashes ∧ b = dashes then .ok (acc, rest)
    else if a = dashes ∧ b = noNewlineMark then .ok (strip_last_nl acc, rest)
    else scan_blank start_line (acc ++ a ++ ['\n']) (b :: rest)

/-- The stanza loop of `TestFile::parse`, on the file's lines. `i` is the
0-based index of the first line of `ls` in the file. The fuel only bounds the
recursion: each iteration consumes at least one line, so fuel of at least the
number of lines never runs out (`parse` below supplies exactly that). -/
def parseStanzasF : Nat → Nat → List Str → Except DDErr (List Stanza)
  | _, _, [] => .ok []
  | 0, _, _ :: _ => .error (.parse ("model out of fuel").data)
  | fuel + 1, i, l :: rest =>
    let tline := truncHash l
    if is_blank tline then
      match parseStanzasF fuel (i + 1) rest with
      | .error e => .error e
      | .ok sts => .ok (.comment l :: sts)
    else
      match (parse_directive tline).mapError (fun e => e.with_line (i + 1)) with
      | .error e => .error e
      | .ok (directive, args) =>
        let inputLines := rest.takeWhile (fun x => x ≠ dashes)
        let rest1 := rest.dropWhile (fun x => x ≠ dashes)
        let rest2 := rest1.tail
        let scanned : Except DDErr (Str × List Str) :=
          if rest2.head? = some dashes then scan_blank (i + 1) [] rest2.tail
          else .ok (scan_plain rest2)
        match scanned with
        | .error e => .error e
        | .ok (expected, rest4) =>
          let tc : TestCase :=
            { directive := directive, args := args, input := joinNl inputLines,
              directive_line := l, expected := expected, line_number := i + 1 }
          match rest4 with
          | [] => .ok [.test tc]
          | [_] => .ok [.test tc]
          | _ :: r :: rest5 =>
            match parseStanzasF fuel (i + 1 + (rest.length - (r :: rest5).length)) (r :: rest5) with
            | .error e => .error e
            | .ok sts => .ok (.test tc :: .comment [] :: sts)

/-- `TestFile::parse`. -/
def parse (f : Str) : Except DDErr (List Stanza) :=
  parseStanzasF (rlines f).length 0 (rlines f)

/-- Two consecutive newlines (`s.contains("\n\n")`). -/
def hasNlNl : Str → Bool
  | '\n' :: '\n' :: _ => true
  | _ :: rest => hasNlNl rest
  | [] => false

/-- `write_result`: choose the separator framing for a result string. -/
def write_result (s : Str) : Str :=
  if s = [] ∨ s = ['\n'] then ("----\n").data
  else if s.getLast? ≠ some '\n' then
    ("----\n----\n").data ++ s ++ ("\n----\n---- (no newline)\n").data
  else if hasNlNl s then
    ("----\n----\n").data ++ s ++ ("----\n----\n").data
  else ("----\n").data ++ s

/-- `TestFile::run_rewrite`, with the written file text returned instead of
written to disk; `f` is the evaluation function (already unwrapped to the
result string, as `run_rewrite` does with `.result().unwrap()`). -/
def run_rewrite (f : TestCase → Str) : List Stanza → Str
  | [] => []
  | .test c :: rest => c.directive_line ++ '\n' :: (c.input ++ (write_result (f c) ++ run_rewrite f rest))
  | .comment c :: rest => c ++ '\n' :: run_rewrite f rest

/-- Serialization that reproduces the stored expected text (rewrite with the
identity evaluation function). -/
def render : List Stanza → Str :=
  run_rewrite (fun c => c.expected)

/-- The failure message of a mismatch in `run_normal`. -/
def mismatchMsg (filename : Str) (c : TestCase) (result : Str) : Str :=
  ("failure:\n").data ++ filename ++ (":").data ++ (Nat.repr c.line_number).data ++
    (":\n").data ++ c.input ++ ("\nexpected:\n").data ++ c.expected ++
    ("\nactual:\n").data ++ result

/-- The failure message of an evaluation error in `run_normal`. -/
def errorMsg (filename : Str) (c : TestCase) (err : Str) : Str :=
  ("failure:\n").data ++ filename ++ (":").data ++ (Nat.repr c.line_number).data ++
    (":\n").data ++ c.input ++ ('\n' :: err)

/-- The stanza loop of `TestFile::run_normal`: `failure` is the file's
failure slot. A mismatch records a message and breaks out of the loop; an
evaluation error records a message and continues with the next stanza. -/
def run_normal_go (f : TestCase → Except Str Str) (filename : Str)
    (failure : Option Str) : List Stanza → Option Str
  | [] => failure
  | .comment _ :: rest => run_normal_go f filename failure rest
  | .test c :: rest =>
    match f c with
    | .ok result =>
      if result ≠ c.expected then some (mismatchMsg filename c result)
      else run_normal_go f filename failure rest
    | .error err => run_normal_go f filename (some (errorMsg filename c err)) rest

/-- `TestFile::run_normal`: the failure slot starts empty. -/
def run_normal (f : TestCase → Except Str Str) (filename : Str)
    (stanzas : List Stanza) : Option Str :=
  run_normal_go f filename none stanzas

/-! ## Conditions under which serialization round-trips

`GoodSeq` below carves out the stanza sequences whose rendered text parses
back to the same stanzas. The restrictions record exactly the ways in which
the unrestricted round-trip law fails on the code (see the counterexamples
accompanying the round-trip theorems). -/

/-- A line as stored in a stanza: no embedded newline, no trailing carriage
return (which `str::lines` would strip away), and within the Latin-1 range
on which this model's character classes agree exactly with Rust's. -/
def goodLine (l : Str) : Prop :=
  (∀ c ∈ l, c ≠ '\n') ∧ l.getLast? ≠ some '\x0D' ∧ ∀ c ∈ l, c.toNat ≤ 0xFF

/-- No piece of the newline decomposition ends in a carriage return before
its newline (so `str::lines` strips nothing but newlines). -/
def noCRpieces (s : Str) : Prop :=
  ∀ p ∈ splitInclNl s, p.dropLast.getLast? ≠ some '\x0D'

/-- An input block that scans back verbatim: empty, or newline-terminated
with no line equal to the separator `----` (which would end the block
early). -/
def goodInput (s : Str) : Prop :=
  s = [] ∨ (s.getLast? = some '\n' ∧ noCRpieces s ∧ (∀ l ∈ rlines s, l ≠ dashes) ∧
    ∀ c ∈ s, c.toNat ≤ 0xFF)

/-- A result string whose `write_result` framing scans back to exactly the
same string. A single newline is excluded (it is framed like the empty
result and scans back to empty); in the double-separator framings no line may
equal `----` (a premature terminator pair could arise); in the plain framing
every line must be non-blank (a blank line ends the block early) and the
first line must not be `----` (it would switch the scanner into blank
mode). -/
def resultOk (s : Str) : Prop :=
  s = [] ∨ (s ≠ ['\n'] ∧ (∀ c ∈ s, c.toNat ≤ 0xFF) ∧
    if s.getLast? = some '\n' then
      noCRpieces s ∧
      (if hasNlNl s then ∀ l ∈ rlines s, l ≠ dashes
       else (∀ l ∈ rlines s, is_blank l = false) ∧ (rlines s).head? ≠ some dashes)
    else noCRpieces (s ++ ['\n']) ∧ ∀ l ∈ rlines (s ++ ['\n']), l ≠ dashes)

/-- A test case whose rendered form reparses to itself: the directive line is
a single non-comment line that reparses to the stored directive and argument
map, the input block is good, and the expected text round-trips through
`write_result`. -/
def goodTest (t : TestCase) : Prop :=
  goodLine t.directive_line ∧
  is_blank (truncHash t.directive_line) = false ∧
  parse_directive (truncHash t.directive_line) = .ok (t.directive, t.args) ∧
  goodInput t.input ∧
  resultOk t.expected

/-- A comment stanza the scanner recognizes as such: one line that is blank
after comment truncation. -/
def goodComment (c : Str) : Prop :=
  goodLine c ∧ is_blank (truncHash c) = true

/-- Stanza sequences whose rendering reparses to the same stanzas. Every
test stanza is either last or followed by an empty comment (the blank
separator line the scanner consumes as terminator) that is itself not last
(the scanner re-emits that comment only when more lines follow). -/
inductive GoodSeq : List Stanza → Prop where
  | nil : GoodSeq []
  | comment (c : Str) (rest : List Stanza) :
      goodComment c → GoodSeq rest → GoodSeq (.comment c :: rest)
  | test_last (t : TestCase) : goodTest t → GoodSeq [.test t]
  | test_cont (t : TestCase) (s : Stanza) (rest : List Stanza) :
      goodTest t → GoodSeq (s :: rest) → GoodSeq (.test t :: .comment [] :: s :: rest)

/-- The lines `write_result s` contributes to the rendered file. -/
def wrLines (s : Str) : List Str :=
  if s = [] ∨ s = ['\n'] then [dashes]
  else if s.getLast? ≠ some '\n' then
    dashes :: dashes :: (rlines (s ++ ['\n']) ++ [dashes, noNewlineMark])
  else if hasNlNl s then dashes :: dashes :: (rlines s ++ [dashes, dashes])
  else dashes :: rlines s

/-- The lines a stanza contributes to the rendered file. -/
def stanzaLines : Stanza → List Str
  | .comment c => [c]
  | .test t => t.directive_line :: (rlines t.input ++ wrLines t.expected)

/-- All lines of the rendered file of a stanza sequence. -/
def allLines : List Stanza → List Str
  | [] => []
  | st :: rest => stanzaLines st ++ allLines rest

/-- Replace a test case's line number (comments carry none). -/
def setLine : Stanza → Nat → Stanza
  | .comment c, _ => .comment c
  | .test t, n => .test { t with line_number := n }

/-- The stanzas the scanner reconstructs: identical except that each test's
line number is its 1-indexed position in the rendered file. -/
def renumber (i : Nat) : List Stanza → List Stanza
  | [] => []
  | st :: rest => setLine st (i + 1) :: renumber (i + (stanzaLines st).length) rest

/-- A terminator pair (`----` then `----` or `---- (no newline)`) never
occurs at consecutive lines. -/
def noTermPair : List Str → Bool
  | a :: b :: rest =>
    if a = dashes ∧ (b = dashes ∨ b = noNewlineMark) then false
    else noTermPair (b :: rest)
  | _ => true

/-! ## Helper lemmas about line splitting and joining -/

theorem splitInclNl_ne_nil {s : Str} (h : s ≠ []) : splitInclNl s ≠ [] := by
  match s with
  | [] => exact absurd rfl h
  | c :: rest =>
    simp only [splitInclNl]
    split
    · simp
    · cases hr : splitInclNl rest <;> simp

theorem splitInclNl_piece_ne_nil {s : Str} : ∀ p ∈ splitInclNl s, p ≠ [] := by
  induction s with
  | nil => simp [splitInclNl]
  | cons c rest ih =>
    intro p hp
    simp only [splitInclNl] at hp
    split at hp
    · rcases List.mem_cons.mp hp with rfl | hmem
      · simp
      · exact ih p hmem
    · cases hr : splitInclNl rest with
      | nil => rw [hr] at hp; simp at hp; subst hp; simp
      | cons hh tt =>
        rw [hr] at hp
        rcases List.mem_cons.mp hp with rfl | hmem
        · simp
        · exact ih p (by rw [hr]; exact List.mem_cons_of_mem _ hmem)

theorem flatten_splitInclNl (s : Str) : (splitInclNl s).flatten = s := by
  induction s with
  | nil => rfl
  | cons c rest ih =>
    simp only [splitInclNl]
    split
    · rename_i h
      subst h
      simp only [List.flatten_cons, ih]
      rfl
    · cases hr : splitInclNl rest with
      | nil =>
        rw [hr] at ih
        simp only [List.flatten_nil] at ih
        simp [← ih]
      | cons hh tt =>
        rw [hr] at ih
        simp only [List.flatten_cons] at ih ⊢
        simp [ih]

theorem splitInclNl_cons (c : Char) (rest : Str) :
    splitInclNl (c :: rest) =
      if c = '\n' then ['\n'] :: splitInclNl rest
      else
        match splitInclNl rest with
        | [] => [[c]]
        | h :: t => (c :: h) :: t := rfl

theorem splitInclNl_append {s : Str} (t : Str) (h : s.getLast? = some '\n') :
    splitInclNl (s ++ t) = splitInclNl s ++ splitInclNl t := by
  induction s with
  | nil => simp at h
  | cons c rest ih =>
    match rest with
    | [] =>
      simp only [List.getLast?_singleton, Option.some.injEq] at h
      subst h
      rw [List.singleton_append, splitInclNl_cons]
      simp only [if_pos rfl]
      rfl
    | d :: rest2 =>
      have h2 : (d :: rest2).getLast? = some '\n' := by
        rwa [List.getLast?_cons_cons] at h
      rw [List.cons_append, splitInclNl_cons, splitInclNl_cons c (d :: rest2), ih h2]
      by_cases hc : c = '\n'
      · simp only [if_pos hc]
        rfl
      · simp only [if_neg hc]
        cases hsp : splitInclNl (d :: rest2) with
        | nil => exact absurd hsp (splitInclNl_ne_nil (by simp))
        | cons hh tt => simp

theorem splitInclNl_single {l : Str} (h : ∀ c ∈ l, c ≠ '\n') :
    splitInclNl (l ++ ['\n']) = [l ++ ['\n']] := by
  induction l with
  | nil => rfl
  | cons c rest ih =>
    rw [List.cons_append, splitInclNl_cons, if_neg (h c (by simp)),
      ih (fun x hx => h x (by simp [hx]))]

theorem pieces_end_nl {s : Str} (h : s.getLast? = some '\n') :
    ∀ p ∈ splitInclNl s, p.getLast? = some '\n' := by
  induction s with
  | nil => simp [splitInclNl]
  | cons c rest ih =>
    match rest with
    | [] =>
      simp only [List.getLast?_singleton, Option.some.injEq] at h
      subst h
      intro p hp
      have he : splitInclNl ['\n'] = [['\n']] := rfl
      rw [he] at hp
      rcases List.mem_cons.mp hp with rfl | hmem
      · rfl
      · simp at hmem
    | d :: rest2 =>
      have h2 : (d :: rest2).getLast? = some '\n' := by
        rwa [List.getLast?_cons_cons] at h
      intro p hp
      rw [splitInclNl_cons] at hp
      by_cases hc : c = '\n'
      · rw [if_pos hc] at hp
        rcases List.mem_cons.mp hp with rfl | hmem
        · rfl
        · exact ih h2 p hmem
      · rw [if_neg hc] at hp
        cases hsp : splitInclNl (d :: rest2) with
        | nil => exact absurd hsp (splitInclNl_ne_nil (by simp))
        | cons hh tt =>
          rw [hsp] at hp
          rcases List.mem_cons.mp hp with rfl | hmem
          · have hhn : hh ≠ [] :=
              splitInclNl_piece_ne_nil hh (by rw [hsp]; exact List.mem_cons_self _ _)
            have hgl : (c :: hh).getLast? = hh.getLast? := by
              have := List.getLast?_append_of_ne_nil [c] hhn
              simpa using this
            rw [hgl]
            exact ih h2 hh (by rw [hsp]; exact List.mem_cons_self _ _)
          · exact ih h2 p (by rw [hsp]; exact List.mem_cons_of_mem _ hmem)

theorem eq_dropLast_concat_of_getLast? {p : Str} {a : Char} (h : p.getLast? = some a) :
    p = p.dropLast ++ [a] := by
  induction p with
  | nil => simp at h
  | cons c rest ih =>
    match rest with
    | [] =>
      simp only [List.getLast?_singleton, Option.some.injEq] at h
      subst h
      rfl
    | d :: rest2 =>
      rw [List.getLast?_cons_cons] at h
      have hrec := ih h
      calc c :: (d :: rest2) = c :: ((d :: rest2).dropLast ++ [a]) := by rw [← hrec]
        _ = (c :: (d :: rest2)).dropLast ++ [a] := by simp

theorem joinNl_append (a b : List Str) : joinNl (a ++ b) = joinNl a ++ joinNl b := by
  induction a with
  | nil => rfl
  | cons l rest ih => simp [joinNl, ih]

theorem rlines_nil : rlines [] = [] := rfl

theorem rlines_append {s : Str} (t : Str) (h : s.getLast? = some '\n') :
    rlines (s ++ t) = rlines s ++ rlines t := by
  unfold rlines
  rw [splitInclNl_append t h, List.map_append]

theorem rlines_single {l : Str} (h1 : ∀ c ∈ l, c ≠ '\n') (h2 : l.getLast? ≠ some '\x0D') :
    rlines (l ++ ['\n']) = [l] := by
  unfold rlines
  rw [splitInclNl_single h1]
  simp only [List.map_cons, List.map_nil, lineMap]
  rw [if_pos (List.getLast?_concat l), List.dropLast_concat, if_neg h2]

theorem joinNl_dropLast_pieces (ps : List Str) (h : ∀ p ∈ ps, p.getLast? = some '\n') :
    joinNl (ps.map List.dropLast) = ps.flatten := by
  induction ps with
  | nil => rfl
  | cons p rest ih =>
    simp only [List.map_cons, joinNl, List.flatten_cons]
    rw [ih (fun q hq => h q (List.mem_cons_of_mem _ hq))]
    have hp := eq_dropLast_concat_of_getLast? (h p (List.mem_cons_self _ _))
    calc p.dropLast ++ '\n' :: rest.flatten
        = (p.dropLast ++ ['\n']) ++ rest.flatten := by simp
      _ = p ++ rest.flatten := by rw [← hp]

theorem join_rlines {s : Str} (h1 : s.getLast? = some '\n') (h2 : noCRpieces s) :
    joinNl (rlines s) = s := by
  unfold rlines
  have hmap : (splitInclNl s).map lineMap = (splitInclNl s).map List.dropLast := by
    apply List.map_congr_left
    intro p hp
    unfold lineMap
    rw [if_pos (pieces_end_nl h1 p hp), if_neg (h2 p hp)]
  rw [hmap, joinNl_dropLast_pieces _ (pieces_end_nl h1), flatten_splitInclNl]

/-! ## Lemmas about the expected-block scanners -/

theorem takeWhile_append_all {α : Type} {p : α → Bool} {xs : List α} (ys : List α)
    (h : ∀ x ∈ xs, p x = true) : (xs ++ ys).takeWhile p = xs ++ ys.takeWhile p := by
  induction xs with
  | nil => rfl
  | cons x rest ih =>
    rw [List.cons_append, List.takeWhile_cons, if_pos (h x (by simp)),
      ih (fun y hy => h y (by simp [hy]))]
    rfl

theorem dropWhile_append_all {α : Type} {p : α → Bool} {xs : List α} (ys : List α)
    (h : ∀ x ∈ xs, p x = true) : (xs ++ ys).dropWhile p = ys.dropWhile p := by
  induction xs with
  | nil => rfl
  | cons x rest ih =>
    rw [List.cons_append, List.dropWhile_cons, if_pos (h x (by simp))]
    exact ih (fun y hy => h y (by simp [hy]))

theorem scan_plain_app (els tl : List Str) (h : ∀ e ∈ els, is_blank e = false)
    (htl : ∀ hd, tl.head? = some hd → is_blank hd = true) :
    scan_plain (els ++ tl) = (joinNl els, tl) := by
  induction els with
  | nil =>
    match tl with
    | [] => rfl
    | hd :: tl2 =>
      have hb := htl hd rfl
      simp [scan_plain, hb, joinNl]
  | cons e rest ih =>
    rw [List.cons_append]
    have hb : is_blank e = false := h e (by simp)
    have hstep : scan_plain (e :: (rest ++ tl)) =
        (e ++ '\n' :: (scan_plain (rest ++ tl)).1, (scan_plain (rest ++ tl)).2) := by
      simp [scan_plain, hb]
    rw [hstep, ih (fun x hx => h x (by simp [hx]))]
    simp [joinNl]

theorem scan_blank_cons2 (n : Nat) (acc a b : Str) (rest : List Str) :
    scan_blank n acc (a :: b :: rest) =
      if a = dashes ∧ b = dashes then .ok (acc, rest)
      else if a = dashes ∧ b = noNewlineMark then .ok (strip_last_nl acc, rest)
      else scan_blank n (acc ++ a ++ ['\n']) (b :: rest) := rfl

theorem scan_blank_step (n : Nat) (acc a : Str) (l : List Str) (hne : a ≠ dashes)
    (hl : l ≠ []) : scan_blank n acc (a :: l) = scan_blank n (acc ++ a ++ ['\n']) l := by
  match l with
  | [] => exact absurd rfl hl
  | b :: l2 =>
    rw [scan_blank_cons2, if_neg (fun hc => hne hc.1), if_neg (fun hc => hne hc.1)]

theorem scan_blank_app_pair (n : Nat) (els tl : List Str) (h : ∀ e ∈ els, e ≠ dashes) :
    ∀ acc, scan_blank n acc (els ++ (dashes :: dashes :: tl)) = .ok (acc ++ joinNl els, tl) := by
  induction els with
  | nil =>
    intro acc
    rw [List.nil_append, scan_blank_cons2, if_pos ⟨rfl, rfl⟩]
    simp [joinNl]
  | cons e rest ih =>
    intro acc
    rw [List.cons_append, scan_blank_step n acc e _ (h e (by simp)) (by simp),
      ih (fun x hx => h x (by simp [hx]))]
    simp [joinNl]

theorem scan_blank_app_nonl (n : Nat) (els tl : List Str) (h : ∀ e ∈ els, e ≠ dashes) :
    ∀ acc, scan_blank n acc (els ++ (dashes :: noNewlineMark :: tl)) =
      .ok (strip_last_nl (acc ++ joinNl els), tl) := by
  induction els with
  | nil =>
    intro acc
    rw [List.nil_append, scan_blank_cons2, if_neg (by decide), if_pos ⟨rfl, rfl⟩]
    simp [joinNl]
  | cons e rest ih =>
    intro acc
    rw [List.cons_append, scan_blank_step n acc e _ (h e (by simp)) (by simp),
      ih (fun x hx => h x (by simp [hx]))]
    simp [joinNl]

theorem noTermPair_cons2 (a b : Str) (rest : List Str) :
    noTermPair (a :: b :: rest) =
      if a = dashes ∧ (b = dashes ∨ b = noNewlineMark) then false
      else noTermPair (b :: rest) := rfl

theorem scan_blank_unclosed (n : Nat) :
    ∀ ls : List Str, ls ≠ [] → noTermPair ls = true →
      ∀ acc, scan_blank n acc ls = .error (unclosedMsg n)
  | [], h, _, _ => absurd rfl h
  | [_], _, _, _ => rfl
  | a :: b :: rest, _, hnp, acc => by
    have hcond : ¬(a = dashes ∧ (b = dashes ∨ b = noNewlineMark)) := by
      intro hc
      rw [noTermPair_cons2, if_pos hc] at hnp
      exact absurd hnp (by simp)
    have hrec : noTermPair (b :: rest) = true := by
      rw [noTermPair_cons2, if_neg hcond] at hnp
      exact hnp
    rw [scan_blank_cons2, if_neg (fun hc => hcond ⟨hc.1, Or.inl hc.2⟩),
      if_neg (fun hc => hcond ⟨hc.1, Or.inr hc.2⟩)]
    exact scan_blank_unclosed n (b :: rest) (by simp) hrec _

/-! ## Lemmas about the serializer's line structure -/

theorem wrLines_head (s : Str) : (wrLines s).head? = some dashes := by
  unfold wrLines
  split
  · rfl
  split
  · rfl
  split
  · rfl
  · rfl

theorem rlines_write_result {s : Str} (h : resultOk s) :
    rlines (write_result s) = wrLines s := by
  rcases h with rfl | ⟨hne1, _hle, hcond⟩
  · decide
  by_cases hs0 : s = []
  · subst hs0; decide
  have hfirst : ¬(s = [] ∨ s = ['\n']) := by
    intro hc
    rcases hc with hc | hc
    · exact hs0 hc
    · exact hne1 hc
  unfold write_result wrLines
  rw [if_neg hfirst, if_neg hfirst]
  by_cases hnl : s.getLast? = some '\n'
  · have hne2 : ¬(List.getLast? s ≠ some '\n') := fun hc => hc hnl
    rw [if_neg hne2, if_neg hne2]
    rw [if_pos hnl] at hcond
    obtain ⟨hcr, hsub⟩ := hcond
    by_cases hnn : hasNlNl s
    · rw [if_pos hnn, if_pos hnn]
      have hassoc : ("----\n----\n").data ++ s ++ ("----\n----\n").data =
          ("----\n----\n").data ++ (s ++ ("----\n----\n").data) := by
        simp [List.append_assoc]
      rw [hassoc, rlines_append _ (by decide), rlines_append _ hnl]
      have hA : rlines (("----\n----\n").data) = [dashes, dashes] := by decide
      rw [hA]
      simp
    · rw [if_neg hnn, if_neg hnn]
      rw [rlines_append _ (by decide)]
      have hA : rlines (("----\n").data) = [dashes] := by decide
      rw [hA]
      rfl
  · rw [if_pos hnl, if_pos hnl]
    rw [if_neg hnl] at hcond
    have hassoc : ("----\n----\n").data ++ s ++ ("\n----\n---- (no newline)\n").data =
        ("----\n----\n").data ++ ((s ++ ['\n']) ++ ("----\n---- (no newline)\n").data) := by
      simp
    rw [hassoc, rlines_append _ (by decide),
      rlines_append _ (List.getLast?_concat s)]
    have hA : rlines (("----\n----\n").data) = [dashes, dashes] := by decide
    have hB : rlines (("----\n---- (no newline)\n").data) = [dashes, noNewlineMark] := by decide
    rw [hA, hB]
    simp

/-! ## The scanner reconstructs a rendered test stanza -/

theorem parseStanzasF_cons (fuel i : Nat) (l : Str) (rest : List Str) :
    parseStanzasF (fuel + 1) i (l :: rest) =
      if is_blank (truncHash l) then
        match parseStanzasF fuel (i + 1) rest with
        | .error e => .error e
        | .ok sts => .ok (.comment l :: sts)
      else
        match (parse_directive (truncHash l)).mapError (fun e => e.with_line (i + 1)) with
        | .error e => .error e
        | .ok (directive, args) =>
          match
            (if (rest.dropWhile (fun x => x ≠ dashes)).tail.head? = some dashes then
              scan_blank (i + 1) [] (rest.dropWhile (fun x => x ≠ dashes)).tail.tail
            else .ok (scan_plain (rest.dropWhile (fun x => x ≠ dashes)).tail)) with
          | .error e => .error e
          | .ok (expected, rest4) =>
            let tc : TestCase :=
              { directive := directive, args := args,
                input := joinNl (rest.takeWhile (fun x => x ≠ dashes)),
                directive_line := l, expected := expected, line_number := i + 1 }
            match rest4 with
            | [] => .ok [.test tc]
            | [_] => .ok [.test tc]
            | _ :: r :: rest5 =>
              match parseStanzasF fuel (i + 1 + (rest.length - (r :: rest5).length)) (r :: rest5) with
              | .error e => .error e
              | .ok sts => .ok (.test tc :: .comment [] :: sts) := rfl

theorem parseStanzasF_test_step (fuel i : Nat) (t : TestCase) (ht : goodTest t)
    (tl : List Str) (htl : ∀ hd, tl.head? = some hd → hd = []) :
    parseStanzasF (fuel + 1) i (stanzaLines (.test t) ++ tl) =
      match tl with
      | [] => .ok [.test { t with line_number := i + 1 }]
      | [_] => .ok [.test { t with line_number := i + 1 }]
      | _ :: r :: rest5 =>
        match parseStanzasF fuel (i + (stanzaLines (.test t)).length + 1) (r :: rest5) with
        | .error e => .error e
        | .ok sts => .ok (.test { t with line_number := i + 1 } :: .comment [] :: sts) := by
  obtain ⟨d, args, inp, dl, exp, ln⟩ := t
  obtain ⟨hgl, hnb, hpd, hgi, hro⟩ := ht
  simp only at hnb hpd hgi hro
  -- the rendered lines of the test stanza
  have hsl : stanzaLines (.test ⟨d, args, inp, dl, exp, ln⟩) =
      dl :: (rlines inp ++ wrLines exp) := rfl
  rw [hsl, List.cons_append, List.append_assoc]
  rw [parseStanzasF_cons]
  rw [if_neg (by rw [hnb]; simp)]
  rw [hpd]
  simp only [Except.mapError]
  -- the input slurp stops at the first line of the framing
  obtain hwne : (wrLines exp).head? = some dashes := wrLines_head exp
  obtain ⟨wt, hwt⟩ : ∃ wt, wrLines exp = dashes :: wt := by
    cases hw : wrLines exp with
    | nil => rw [hw] at hwne; exact absurd hwne (by simp)
    | cons w0 wts =>
      rw [hw] at hwne
      simp only [List.head?_cons, Option.some.injEq] at hwne
      exact ⟨wts, by rw [hwne]⟩
  have hinp_ne : ∀ l ∈ rlines inp, l ≠ dashes := by
    rcases hgi with rfl | ⟨_, _, hnd, _⟩
    · simp [rlines, splitInclNl]
    · exact hnd
  have hinp_all : ∀ l ∈ rlines inp, (fun x => decide (x ≠ dashes)) l = true := by
    intro l hl
    simp [hinp_ne l hl]
  have htake : (rlines inp ++ (wrLines exp ++ tl)).takeWhile (fun x => x ≠ dashes) =
      rlines inp := by
    rw [takeWhile_append_all _ hinp_all, hwt, List.cons_append, List.takeWhile_cons]
    simp
  have hdrop : (rlines inp ++ (wrLines exp ++ tl)).dropWhile (fun x => x ≠ dashes) =
      dashes :: (wt ++ tl) := by
    rw [dropWhile_append_all _ hinp_all, hwt, List.cons_append, List.dropWhile_cons]
    simp
  rw [htake, hdrop]
  simp only [List.tail_cons]
  have hjinp : joinNl (rlines inp) = inp := by
    rcases hgi with rfl | ⟨hnlinp, hcrinp, _, _⟩
    · rfl
    · exact join_rlines hnlinp hcrinp
  -- case analysis along the write_result branches
  by_cases h0 : exp = []
  · subst h0
    have hwt0 : wt = [] := by
      have : wrLines [] = [dashes] := by decide
      rw [this] at hwt
      exact (List.cons.injEq _ _ _ _).mp hwt.symm |>.2
    subst hwt0
    rw [List.nil_append]
    have hblank : ¬(tl.head? = some dashes) := by
      intro hc
      cases tl with
      | nil => simp at hc
      | cons hd tl2 =>
        simp only [List.head?_cons, Option.some.injEq] at hc
        have := htl hd rfl
        rw [this] at hc
        exact absurd hc.symm (by decide)
    rw [if_neg hblank]
    have hscan : scan_plain tl = ([], tl) := by
      have := scan_plain_app [] tl (by simp)
        (fun hd hhd => by rw [htl hd hhd]; rfl)
      simpa [joinNl] using this
    rw [hscan]
    simp only [hjinp]
    match tl with
    | [] => rfl
    | [x] => rfl
    | x :: r :: rest5 =>
      have hidx : i + 1 + ((rlines inp ++ (wrLines ([] : Str) ++ (x :: r :: rest5))).length -
          (r :: rest5).length) =
          i + (dl :: (rlines inp ++ wrLines ([] : Str))).length + 1 := by
        simp only [List.length_append, List.length_cons]
        have hw1 : (wrLines ([] : Str)).length = 1 := by decide
        rw [hw1]
        omega
      dsimp only
      rw [hidx]
  · -- expected nonempty: the three framed branches
    have hro2 : exp ≠ ['\n'] ∧ (∀ c ∈ exp, c.toNat ≤ 0xFF) ∧
        if exp.getLast? = some '\n' then
          noCRpieces exp ∧
          (if hasNlNl exp then ∀ l ∈ rlines exp, l ≠ dashes
           else (∀ l ∈ rlines exp, is_blank l = false) ∧ (rlines exp).head? ≠ some dashes)
        else noCRpieces (exp ++ ['\n']) ∧ ∀ l ∈ rlines (exp ++ ['\n']), l ≠ dashes := by
      rcases hro with rfl | hro2
      · exact absurd rfl h0
      · exact hro2
    obtain ⟨hne1, hle, hcond⟩ := hro2
    have hfirst : ¬(exp = [] ∨ exp = ['\n']) := by
      intro hc
      rcases hc with hc | hc
      · exact h0 hc
      · exact hne1 hc
    by_cases hnl : exp.getLast? = some '\n'
    · rw [if_pos hnl] at hcond
      obtain ⟨hcr, hsub⟩ := hcond
      by_cases hnn : hasNlNl exp
      · -- internal blank line: double separator on both sides
        rw [if_pos hnn] at hsub
        have hwL : wrLines exp = dashes :: dashes :: (rlines exp ++ [dashes, dashes]) := by
          unfold wrLines
          rw [if_neg hfirst, if_neg (fun hc => hc hnl), if_pos hnn]
        rw [hwL] at hwt
        have hwt2 : wt = dashes :: (rlines exp ++ [dashes, dashes]) := by
          simpa using hwt.symm
        subst hwt2
        rw [List.cons_append]
        rw [if_pos (by simp)]
        simp only [List.tail_cons]
        have hre : (rlines exp ++ [dashes, dashes]) ++ tl =
            rlines exp ++ (dashes :: dashes :: tl) := by
          simp
        rw [hre, scan_blank_app_pair _ _ _ hsub]
        simp only [List.nil_append]
        rw [join_rlines hnl hcr, hjinp]
        match tl with
        | [] => rfl
        | [x] => rfl
        | x :: r :: rest5 =>
          have hidx : i + 1 + ((rlines inp ++ (wrLines exp ++ (x :: r :: rest5))).length -
              (r :: rest5).length) =
              i + (dl :: (rlines inp ++ wrLines exp)).length + 1 := by
            simp only [List.length_append, List.length_cons]
            omega
          dsimp only
          rw [hidx]
      · -- plain framing: single separator
        rw [if_neg hnn] at hsub
        obtain ⟨hnb2, hhd⟩ := hsub
        have hwL : wrLines exp = dashes :: rlines exp := by
          unfold wrLines
          rw [if_neg hfirst, if_neg (fun hc => hc hnl), if_neg hnn]
        rw [hwL] at hwt
        have hwt2 : wt = rlines exp := by
          simpa using hwt.symm
        subst hwt2
        have hrne : rlines exp ≠ [] := by
          intro hc
          have hfl := flatten_splitInclNl exp
          unfold rlines at hc
          rcases List.map_eq_nil_iff.mp hc with hnil
          rw [hnil] at hfl
          simp only [List.flatten_nil] at hfl
          exact h0 hfl.symm
        have hblank : ¬((rlines exp ++ tl).head? = some dashes) := by
          intro hc
          cases hre : rlines exp with
          | nil => exact hrne hre
          | cons e0 es =>
            rw [hre, List.cons_append, List.head?_cons] at hc
            have he0 : e0 = dashes := by simpa using hc
            apply hhd
            rw [hre, List.head?_cons, he0]
        rw [if_neg hblank]
        rw [scan_plain_app _ _ hnb2 (fun hd hhd => by rw [htl hd hhd]; rfl)]
        rw [join_rlines hnl hcr, hjinp]
        match tl with
        | [] => rfl
        | [x] => rfl
        | x :: r :: rest5 =>
          have hidx : i + 1 + ((rlines inp ++ (wrLines exp ++ (x :: r :: rest5))).length -
              (r :: rest5).length) =
              i + (dl :: (rlines inp ++ wrLines exp)).length + 1 := by
            simp only [List.length_append, List.length_cons]
            omega
          dsimp only
          rw [hidx]
    · -- no trailing newline: double separator with the no-newline marker
      rw [if_neg hnl] at hcond
      obtain ⟨hcr, hnd⟩ := hcond
      have hwL : wrLines exp =
          dashes :: dashes :: (rlines (exp ++ ['\n']) ++ [dashes, noNewlineMark]) := by
        unfold wrLines
        rw [if_neg hfirst, if_pos hnl]
      rw [hwL] at hwt
      have hwt2 : wt = dashes :: (rlines (exp ++ ['\n']) ++ [dashes, noNewlineMark]) := by
        simpa using hwt.symm
      subst hwt2
      rw [List.cons_append]
      rw [if_pos (by simp)]
      simp only [List.tail_cons]
      have hre : (rlines (exp ++ ['\n']) ++ [dashes, noNewlineMark]) ++ tl =
          rlines (exp ++ ['\n']) ++ (dashes :: noNewlineMark :: tl) := by
        simp
      rw [hre, scan_blank_app_nonl _ _ _ hnd]
      simp only [List.nil_append]
      rw [join_rlines (List.getLast?_concat exp) hcr]
      have hstrip : strip_last_nl (exp ++ ['\n']) = exp := by
        unfold strip_last_nl
        rw [if_pos (List.getLast?_concat exp), List.dropLast_concat]
      rw [hstrip, hjinp]
      match tl with
      | [] => rfl
      | [x] => rfl
      | x :: r :: rest5 =>
        have hidx : i + 1 + ((rlines inp ++ (wrLines exp ++ (x :: r :: rest5))).length -
            (r :: rest5).length) =
            i + (dl :: (rlines inp ++ wrLines exp)).length + 1 := by
          simp only [List.length_append, List.length_cons]
          omega
        dsimp only
        rw [hidx]

theorem parseStanzasF_comment_step (fuel i : Nat) (l : Str) (rest : List Str)
    (h : is_blank (truncHash l) = true) :
    parseStanzasF (fuel + 1) i (l :: rest) =
      match parseStanzasF fuel (i + 1) rest with
      | .error e => .error e
      | .ok sts => .ok (.comment l :: sts) := by
  rw [parseStanzasF_cons, if_pos h]

/-! ## The lines of a rendered good stanza sequence -/

theorem write_result_ends_nl {s : Str} : (write_result s).getLast? = some '\n' := by
  unfold write_result
  split
  · decide
  split
  · rw [List.getLast?_append_of_ne_nil _ (by decide)]
    decide
  split
  · rw [List.getLast?_append_of_ne_nil _ (by decide)]
    decide
  · rename_i h0 hnl _
    have hs : List.getLast? s = some '\n' := Decidable.not_not.mp hnl
    rw [List.getLast?_append_of_ne_nil]
    · exact hs
    · intro hc
      exact h0 (Or.inl hc)

theorem write_result_ne_nil {s : Str} : write_result s ≠ [] := by
  intro hc
  have h : (write_result s).getLast? = some '\n' := write_result_ends_nl
  rw [hc] at h
  exact absurd h (by simp)

theorem rlines_test_render {t : TestCase} (h : goodTest t) :
    rlines (t.directive_line ++ '\n' :: (t.input ++ write_result t.expected)) =
      stanzaLines (.test t) := by
  obtain ⟨hgl, _, _, hgi, hro⟩ := h
  have h1 : t.directive_line ++ '\n' :: (t.input ++ write_result t.expected) =
      (t.directive_line ++ ['\n']) ++ (t.input ++ write_result t.expected) := by simp
  rw [h1, rlines_append _ (List.getLast?_concat _), rlines_single hgl.1 hgl.2.1]
  rcases hgi with hinp | ⟨hnl, _, _, _⟩
  · rw [hinp, List.nil_append, rlines_write_result hro]
    show [t.directive_line] ++ wrLines t.expected = stanzaLines (.test t)
    rw [stanzaLines, hinp]
    rfl
  · rw [rlines_append _ hnl, rlines_write_result hro]
    rw [stanzaLines]
    rfl

theorem test_render_ends_nl (t : TestCase) :
    (t.directive_line ++ '\n' :: (t.input ++ write_result t.expected)).getLast? =
      some '\n' := by
  have h1 : t.directive_line ++ '\n' :: (t.input ++ write_result t.expected) =
      (t.directive_line ++ '\n' :: t.input) ++ write_result t.expected := by simp
  rw [h1, List.getLast?_append_of_ne_nil _ write_result_ne_nil]
  exact write_result_ends_nl

theorem rlines_render_good : ∀ {L : List Stanza}, GoodSeq L →
    rlines (render L) = allLines L := by
  intro L h
  induction h with
  | nil => rfl
  | comment c rest hc _ ih =>
    have hr : render (.comment c :: rest) = (c ++ ['\n']) ++ render rest := by
      simp [render, run_rewrite]
    rw [hr, rlines_append _ (List.getLast?_concat _), rlines_single hc.1.1 hc.1.2.1, ih]
    rfl
  | test_last t ht =>
    have hr : render [.test t] =
        t.directive_line ++ '\n' :: (t.input ++ write_result t.expected) := by
      simp [render, run_rewrite]
    rw [hr, rlines_test_render ht]
    show stanzaLines (.test t) = allLines [.test t]
    simp [allLines]
  | test_cont t s rest ht _ ih =>
    have hr : render (.test t :: .comment [] :: s :: rest) =
        (t.directive_line ++ '\n' :: (t.input ++ write_result t.expected)) ++
          (['\n'] ++ render (s :: rest)) := by
      show t.directive_line ++ '\n' :: (t.input ++ (write_result t.expected ++
          ([] ++ '\n' :: render (s :: rest)))) = _
      simp
    rw [hr, rlines_append (['\n'] ++ render (s :: rest)) (test_render_ends_nl t),
      rlines_append (render (s :: rest))
        (show (['\n'] : Str).getLast? = some '\n' by decide),
      rlines_test_render ht, ih]
    have hnlr : rlines ['\n'] = [[]] := by decide
    rw [hnlr]
    show stanzaLines (.test t) ++ ([[]] ++ allLines (s :: rest)) =
      allLines (.test t :: .comment [] :: s :: rest)
    rfl

/-! ## The scanner reconstructs a good stanza sequence -/

theorem parse_good : ∀ {L : List Stanza}, GoodSeq L → ∀ (i fuel : Nat),
    (allLines L).length ≤ fuel →
    parseStanzasF fuel i (allLines L) = .ok (renumber i L) := by
  intro L h
  induction h with
  | nil =>
    intro i fuel _
    cases fuel <;> rfl
  | comment c rest hc _ ih =>
    intro i fuel hfuel
    have hall : allLines (.comment c :: rest) = c :: allLines rest := rfl
    rw [hall] at hfuel ⊢
    cases fuel with
    | zero => simp at hfuel
    | succ fuel =>
      have hf2 : (allLines rest).length ≤ fuel := by
        simp only [List.length_cons] at hfuel
        omega
      rw [parseStanzasF_comment_step _ _ _ _ hc.2, ih (i + 1) fuel hf2]
      rfl
  | test_last t ht =>
    intro i fuel hfuel
    have hall : allLines [.test t] = stanzaLines (.test t) ++ [] := by
      show stanzaLines (.test t) ++ allLines [] = _
      rfl
    cases fuel with
    | zero =>
      rw [hall] at hfuel
      simp only [List.append_nil, stanzaLines, List.length_cons] at hfuel
      omega
    | succ fuel =>
      rw [hall, parseStanzasF_test_step fuel i t ht [] (by simp)]
      rfl
  | test_cont t s rest ht _ ih =>
    intro i fuel hfuel
    have hall : allLines (.test t :: .comment [] :: s :: rest) =
        stanzaLines (.test t) ++ ([] :: allLines (s :: rest)) := rfl
    rw [hall] at hfuel ⊢
    cases fuel with
    | zero =>
      simp only [stanzaLines, List.length_append, List.length_cons] at hfuel
      omega
    | succ fuel =>
      rw [parseStanzasF_test_step fuel i t ht ([] :: allLines (s :: rest))
        (fun hd hhd => by simpa using hhd.symm)]
      obtain ⟨r, rest5, hsr⟩ : ∃ r rest5, allLines (s :: rest) = r :: rest5 := by
        cases s with
        | comment c => exact ⟨c, _, rfl⟩
        | test t2 => exact ⟨t2.directive_line, _, rfl⟩
      rw [hsr]
      dsimp only
      rw [← hsr]
      have hf2 : (allLines (s :: rest)).length ≤ fuel := by
        simp only [stanzaLines, List.length_append, List.length_cons] at hfuel
        omega
      rw [ih (i + (stanzaLines (.test t)).length + 1) fuel hf2]
      show Except.ok (.test _ :: .comment [] :: renumber _ _) = .ok (renumber i _)
      rw [renumber]
      show Except.ok _ = .ok (setLine (.test t) (i + 1) ::
        renumber (i + (stanzaLines (.test t)).length) (.comment [] :: s :: rest))
      rw [renumber]
      rfl

theorem render_renumber (i : Nat) : ∀ (L : List Stanza), render (renumber i L) = render L := by
  intro L
  induction L generalizing i with
  | nil => rfl
  | cons st rest ih =>
    cases st with
    | comment c =>
      show render (.comment c :: renumber _ rest) = _
      simp only [render, run_rewrite]
      have := ih (i + (stanzaLines (.comment c)).length)
      simp only [render] at this
      rw [this]
    | test t =>
      show render (.test { t with line_number := i + 1 } :: renumber _ rest) = _
      simp only [render, run_rewrite]
      have := ih (i + (stanzaLines (.test t)).length)
      simp only [render] at this
      rw [this]

/-- The full round-trip for good stanza sequences: the rendered text parses,
and the parsed stanzas re-render to the same text. -/
theorem parse_render_good {L : List Stanza} (h : GoodSeq L) :
    parse (render L) = .ok (renumber 0 L) := by
  unfold parse
  rw [rlines_render_good h]
  exact parse_good h 0 _ le_rfl

instance goodLineDec (l : Str) : Decidable (goodLine l) := by
  unfold goodLine; infer_instance

instance noCRpiecesDec (s : Str) : Decidable (noCRpieces s) := by
  unfold noCRpieces; infer_instance

instance goodInputDec (s : Str) : Decidable (goodInput s) := by
  unfold goodInput; infer_instance

instance resultOkDec (s : Str) : Decidable (resultOk s) := by
  unfold resultOk; infer_instance

instance goodTestDec (t : TestCase) : Decidable (goodTest t) := by
  unfold goodTest; infer_instance

instance goodCommentDec (c : Str) : Decidable (goodComment c) := by
  unfold goodComment; infer_instance

/-! ## The claims -/

/-- Claim C1, counterexample: the file text `foo\n----\nbar` (no trailing
newline) parses successfully, but serializing the parsed stanzas in
reproduce-original mode appends a newline, so the output differs from the
original file text. -/
theorem c1_round_trip_counterexample :
    parse (("foo\n----\nbar").data) =
      .ok [.test ⟨("foo").data, [], [], ("foo").data, ("bar\n").data, 1⟩] ∧
    run_rewrite (fun c => c.expected)
      [.test ⟨("foo").data, [], [], ("foo").data, ("bar\n").data, 1⟩] ≠
      ("foo\n----\nbar").data :=
  ⟨rfl, by decide⟩

/-- Claim C1 (amended): for every stanza sequence satisfying `GoodSeq` —
each comment line blank after `#`-truncation, each directive line reparsing
to its stored directive and arguments, input newline-terminated with no
`----` line, expected text satisfying `resultOk`, and every non-final test
followed by an empty comment that is not last — rendering in
reproduce-original mode parses back to the same stanzas (with line numbers
recomputed from position) and re-rendering reproduces the text byte for
byte. -/
theorem c1_round_trip_amended {L : List Stanza} (h : GoodSeq L) :
    parse (run_rewrite (fun c => c.expected) L) = .ok (renumber 0 L) ∧
    run_rewrite (fun c => c.expected) (renumber 0 L) =
      run_rewrite (fun c => c.expected) L :=
  ⟨parse_render_good h, render_renumber 0 L⟩

/-- Claim C1, witness: the amended round trip evaluated on a one-test file. -/
theorem c1_round_trip_witness :
    parse (run_rewrite (fun c => c.expected)
      [.test ⟨("t").data, [], ("in\n").data, ("t").data, ("out\n").data, 7⟩]) =
      .ok (renumber 0
        [.test ⟨("t").data, [], ("in\n").data, ("t").data, ("out\n").data, 7⟩]) ∧
    run_rewrite (fun c => c.expected) (renumber 0
      [.test ⟨("t").data, [], ("in\n").data, ("t").data, ("out\n").data, 7⟩]) =
      run_rewrite (fun c => c.expected)
        [.test ⟨("t").data, [], ("in\n").data, ("t").data, ("out\n").data, 7⟩] :=
  c1_round_trip_amended (GoodSeq.test_last _ (by decide))

/-- Claim C2, counterexample: the result string consisting of a single
newline is framed exactly like the empty result, and scanning the framed
block back yields the empty string, not the original single newline. -/
theorem c2_result_scan_counterexample :
    write_result ['\n'] = ("----\n").data ∧
    parse (("d\n").data ++ write_result ['\n']) =
      .ok [.test ⟨("d").data, [], [], ("d").data, [], 1⟩] ∧
    ([] : Str) ≠ ['\n'] :=
  ⟨rfl, rfl, by decide⟩

/-- Claim C2 (amended): for every result string satisfying `resultOk` —
empty, or not a lone newline, with no `----` line inside the double-separator
framings, and with no blank line, no leading `----` line in the
single-separator framing — the `write_result` framing scans back, under the
scanner's expected-block rules, to exactly the original string. -/
theorem c2_result_scan_amended (s : Str) (h : resultOk s) :
    parse (("d\n").data ++ write_result s) =
      .ok [.test ⟨("d").data, [], [], ("d").data, s, 1⟩] := by
  have hgt : goodTest ⟨("d").data, [], [], ("d").data, s, 1⟩ := by
    refine ⟨?_, ?_, rfl, Or.inl rfl, h⟩
    · show goodLine (("d").data)
      decide
    · show is_blank (truncHash (("d").data)) = false
      decide
  have hg : GoodSeq [.test ⟨("d").data, [], [], ("d").data, s, 1⟩] :=
    GoodSeq.test_last ⟨("d").data, [], [], ("d").data, s, 1⟩ hgt
  have hp := parse_render_good hg
  have hrender : render [(.test ⟨("d").data, [], [], ("d").data, s, 1⟩ : Stanza)] =
      ("d\n").data ++ write_result s := by
    show ("d").data ++ '\n' :: ([] ++ (write_result s ++ [])) = _
    simp
  rw [hrender] at hp
  exact hp

/-- Claim C2, witness: the amended scan-back identity evaluated at the
result string `x\n`. -/
theorem c2_result_scan_witness :
    parse (("d\n").data ++ write_result (("x\n").data)) =
      .ok [.test ⟨("d").data, [], [], ("d").data, ("x\n").data, 1⟩] :=
  c2_result_scan_amended (("x\n").data) (by decide)

/-- Claim C3: in a normal run, an error signalled by the evaluation function
records a failure but does not stop the iteration — contrary to the spec and
to the doc comment of `run` (`If any test fails, execution halts.`), the next
case is still evaluated and its failure message overwrites the first one:
with an evaluation function that always errors, a file with test cases at
lines 1 and 3 ends the run with the failure message of the case at line 3. -/
theorem c3_error_continues_iteration :
    run_normal (fun _ => .error (("boom").data)) (("f").data)
      [.test ⟨("a").data, [], ("i\n").data, ("a").data, ("e\n").data, 1⟩,
       .comment [],
       .test ⟨("b").data, [], ("j\n").data, ("b").data, ("e\n").data, 3⟩] =
      some (errorMsg (("f").data) ⟨("b").data, [], ("j\n").data, ("b").data, ("e\n").data, 3⟩
        (("boom").data)) ∧
    some (errorMsg (("f").data) ⟨("b").data, [], ("j\n").data, ("b").data, ("e\n").data, 3⟩
        (("boom").data)) ≠
      some (errorMsg (("f").data) ⟨("a").data, [], ("i\n").data, ("a").data, ("e\n").data, 1⟩
        (("boom").data)) :=
  ⟨rfl, by decide⟩

/-- Claim C4, counterexample: `foo x=(1,)` — a parenthesized value list with
a trailing comma — parses successfully, yielding the single value before the
comma, rather than failing as the claim states. -/
theorem c4_trailing_comma_counterexample :
    parse_directive (("foo x=(1,)").data) =
      .ok (("foo").data, [((("x").data), [("1").data])]) := rfl

theorem wordchar_not_ws {c : Char} (h : is_wordchar c = true) :
    is_ascii_whitespace c = false := by
  cases hws : is_ascii_whitespace c with
  | false => rfl
  | true =>
    exfalso
    have hc : (((c = ' ' ∨ c = '\t') ∨ c = '\n') ∨ c = '\x0C') ∨ c = '\x0D' := by
      simpa only [is_ascii_whitespace, Bool.or_eq_true, decide_eq_true_eq] using hws
    rcases hc with (((rfl | rfl) | rfl) | rfl) | rfl <;> exact absurd h (by decide)

theorem vals_loop_succ (fuel : Nat) (s : Str) :
    vals_loop (fuel + 1) s =
      if s.head? = some ')' then vals_close [] s
      else
        match parse_word (("argument value").data) s with
        | .error e => .error e
        | .ok (w, r) =>
          if r.head? = some ',' then
            match vals_loop fuel (munch r.tail) with
            | .error e => .error e
            | .ok (vs, r2) => .ok (w :: vs, r2)
          else vals_close [w] r := rfl

/-- Claim C4 (amended): a parenthesized value list with a trailing comma
before the closing parenthesis is accepted, yielding the values before the
comma: `=(w,)` parses to the singleton list `[w]` for every nonempty word
`w` (with fuel at least two; the model's fuel only bounds recursion and two
levels suffice here). -/
theorem c4_trailing_comma_amended (fuel : Nat) (w : Str) (hf : 2 ≤ fuel)
    (hw : w ≠ []) (hwc : ∀ c ∈ w, is_wordchar c = true) :
    parse_vals fuel ('=' :: '(' :: (w ++ (",)").data)) = .ok ([w], []) := by
  obtain ⟨f, rfl⟩ : ∃ f, fuel = f + 2 := ⟨fuel - 2, by omega⟩
  have hstep : parse_vals (f + 2) ('=' :: '(' :: (w ++ (",)").data)) =
      vals_loop (f + 2) (munch (w ++ (",)").data)) := rfl
  rw [hstep]
  have hmw : munch (w ++ (",)").data) = w ++ (",)").data := by
    cases w with
    | nil => exact absurd rfl hw
    | cons c w2 =>
      rw [List.cons_append]
      simp [munch, List.dropWhile_cons, wordchar_not_ws (hwc c (by simp))]
  rw [hmw]
  have hw_head : (w ++ (",)").data).head? ≠ some ')' := by
    cases w with
    | nil => exact absurd rfl hw
    | cons c w2 =>
      simp only [List.cons_append, List.head?_cons]
      intro hc
      have hc2 : c = ')' := by simpa using hc
      exact absurd (hwc c (by simp)) (by rw [hc2]; decide)
  rw [vals_loop_succ, if_neg hw_head]
  have hpw : parse_word (("argument value").data) (w ++ (",)").data) =
      .ok (w, (",)").data) := by
    unfold parse_word
    rw [takeWhile_append_all _ hwc]
    have ht2 : ((",)").data).takeWhile is_wordchar = [] := by decide
    rw [ht2, List.append_nil]
    rw [if_neg (by simpa [List.isEmpty_iff] using hw)]
    rw [dropWhile_append_all _ hwc]
    have hd2 : munch (((",)").data).dropWhile is_wordchar) = (",)").data := by decide
    rw [hd2]
  rw [hpw]
  dsimp only
  rw [if_pos (show ([',', ')'] : Str).head? = some ',' from rfl)]
  have hrec : vals_loop (f + 1) (munch (([',', ')'] : Str).tail)) = .ok ([], []) := by
    have hmt : munch (([',', ')'] : Str).tail) = [')'] := by decide
    rw [hmt, vals_loop_succ, if_pos (show ([')'] : Str).head? = some ')' from rfl)]
    decide
  rw [hrec]

/-- Claim C4, witness: the amended trailing-comma acceptance evaluated at
the value list `(1,)`. -/
theorem c4_trailing_comma_witness :
    parse_vals 2 ('=' :: '(' :: ((("1").data) ++ (",)").data)) = .ok ([("1").data], []) :=
  c4_trailing_comma_amended 2 (("1").data) (by decide) (by decide) (by decide)

/-- Claim C5: serializing the result `abc` (no trailing newline) emits the
blank-mode framing closed by `----` then `---- (no newline)`, and reparsing
that serialized block yields expected text `abc` with no newline appended. -/
theorem c5_no_newline_round_trip :
    write_result (("abc").data) = ("----\n----\nabc\n----\n---- (no newline)\n").data ∧
    parse (("d\n").data ++ write_result (("abc").data)) =
      .ok [.test ⟨("d").data, [], [], ("d").data, ("abc").data, 1⟩] :=
  ⟨rfl, rfl⟩

/-- Claim C6, counterexample: when end-of-file falls immediately after the
opening double separator — blank-output mode with zero lines left — the
scanner's loop never runs, so the file parses successfully with empty
expected text instead of failing with the unclosed-block error the claim
demands. -/
theorem c6_unclosed_counterexample :
    parse (("d\n----\n----\n").data) =
      .ok [.test ⟨("d").data, [], [], ("d").data, [], 1⟩] := rfl

/-- Claim C6 (amended): in blank-output mode, if at least one line follows
the opening double separator and no terminator pair (`----` followed by
`----` or by `---- (no newline)`) occurs, parsing fails with the
unclosed-double-separator error reporting the line number where the test
case began; only when end-of-file falls exactly on the double separator is
the case accepted with empty expected text. -/
theorem c6_unclosed_amended (fuel i : Nat) (rest : List Str) (hne : rest ≠ [])
    (hnp : noTermPair rest = true) :
    parseStanzasF (fuel + 1) i ((("d").data) :: dashes :: dashes :: rest) =
      .error (unclosedMsg (i + 1)) := by
  rw [parseStanzasF_cons]
  rw [if_neg (show ¬(is_blank (truncHash (("d").data)) = true) by decide)]
  rw [show (parse_directive (truncHash (("d").data))).mapError
      (fun e => e.with_line (i + 1)) = Except.ok ((("d").data), ([] : Args)) from rfl]
  dsimp only
  have hdw : (dashes :: dashes :: rest).dropWhile (fun x => decide (x ≠ dashes)) =
      dashes :: dashes :: rest := by
    rw [List.dropWhile_cons, if_neg (by simp)]
  rw [hdw, List.tail_cons]
  rw [if_pos (show (dashes :: rest).head? = some dashes from rfl)]
  rw [List.tail_cons]
  rw [scan_blank_unclosed (i + 1) rest hne hnp []]

/-- Claim C6, witness: the amended unclosed-block error evaluated on a
blank-mode block followed by one stray line. -/
theorem c6_unclosed_witness :
    parseStanzasF 1 0 ((("d").data) :: dashes :: dashes :: [("x").data]) =
      .error (unclosedMsg 1) :=
  c6_unclosed_amended 0 0 [("x").data] (by decide) (by decide)

/-- Claim C7: a directive line in which the same argument name appears
twice fails to parse with a duplicate-argument error. -/
theorem c7_duplicate_argument :
    parse_directive (("foo x=1 x=2").data) =
      .error (.parse (("duplicate argument: x").data)) := rfl

/-- Claim C8, counterexample: an argument present with an empty value list
(the flag form `foo x`) also yields the absent-marker without failing, so
the absent-marker is not returned exactly when the name is wholly missing. -/
theorem c8_try_take_arg_counterexample :
    (try_take_arg (fun v => Except.ok v) (("x").data) [((("x").data), [])]).1 =
      .ok none ∧
    args_lookup (("x").data) [((("x").data), [])] = some [] :=
  ⟨rfl, rfl⟩

/-- Claim C8 (amended): `try_take_arg` returns the absent-marker without
failing exactly when the argument is wholly missing or present with an
empty value list; a singleton value is parsed, failing when the parse
fails; two or more values fail with the arity error. -/
theorem c8_try_take_arg_amended {T : Type} (parseT : Str → Except Str T)
    (arg : Str) (m : Args) :
    ((try_take_arg parseT arg m).1 = .ok none ↔
      (args_lookup arg m = none ∨ args_lookup arg m = some [])) ∧
    (∀ v, args_lookup arg m = some [v] →
      (try_take_arg parseT arg m).1 =
        match parseT v with
        | .ok t => .ok (some t)
        | .error e => .error (.argument (("couldn\x27t parse: ").data ++ e))) ∧
    (∀ v w vs, args_lookup arg m = some (v :: w :: vs) →
      (try_take_arg parseT arg m).1 =
        .error (.argument (("must be exactly one argument to take_arg, ").data ++ arg ++
          (" had ").data ++ (Nat.repr (v :: w :: vs).length).data))) := by
  refine ⟨?_, ?_, ?_⟩
  · cases hc : args_lookup arg m with
    | none => simp [try_take_arg, hc]
    | some vs =>
      match vs with
      | [] => simp [try_take_arg, hc]
      | [v] =>
        cases hp : parseT v with
        | ok t => simp [try_take_arg, hc, hp]
        | error e => simp [try_take_arg, hc, hp]
      | v :: w :: vs2 => simp [try_take_arg, hc]
  · intro v hv
    cases hp : parseT v with
    | ok t => simp [try_take_arg, hv, hp]
    | error e => simp [try_take_arg, hv, hp]
  · intro v w vs hv
    simp [try_take_arg, hv]

/-- Claim C8, witness: the amended behavior evaluated on a present singleton
argument. -/
theorem c8_try_take_arg_witness :
    (try_take_arg (fun v => Except.ok v) (("x").data)
      [((("x").data), [("7").data])]).1 = .ok (some (("7").data)) :=
  (c8_try_take_arg_amended (fun v => Except.ok v) (("x").data)
    [((("x").data), [("7").data])]).2.1 (("7").data) rfl

/-- The word-character class the specification claims — exactly ASCII
A-Z, a-z, 0-9, underscore, period, hyphen — stated from the spec's words,
for comparison with the source's `is_wordchar`. -/
def spec_wordchar (c : Char) : Bool :=
  (0x41 ≤ c.toNat && c.toNat ≤ 0x5A) || (0x61 ≤ c.toNat && c.toNat ≤ 0x7A) ||
  (0x30 ≤ c.toNat && c.toNat ≤ 0x39) || c = '_' || c = '.' || c = '-'

/-- Claim C9, counterexample: `é` (U+00E9) is outside the claimed ASCII
class yet the code treats it as a word character (Rust
`char::is_alphanumeric` is Unicode-aware), and a directive word containing
it parses as a single word instead of being terminated. -/
theorem c9_wordchar_counterexample :
    is_wordchar 'é' = true ∧ spec_wordchar 'é' = false ∧
    parse_directive (("abé").data) = .ok ((("abé").data), []) :=
  ⟨by decide, by decide, rfl⟩

theorem head_dropWhile_not {α : Type} (p : α → Bool) :
    ∀ (l : List α) (c : α), (l.dropWhile p).head? = some c → p c = false := by
  intro l
  induction l with
  | nil =>
    intro c hc
    simp at hc
  | cons a rest ih =>
    intro c hc
    rw [List.dropWhile_cons] at hc
    by_cases hp : p a = true
    · rw [if_pos hp] at hc
      exact ih c hc
    · rw [if_neg hp] at hc
      simp only [List.head?_cons, Option.some.injEq] at hc
      subst hc
      simpa using hp

/-- Claim C9 (amended): on the ASCII range the word-character class is
exactly the claimed `[A-Za-z0-9_.-]`, but beyond ASCII any Unicode
alphanumeric character (such as `é`) is also a word character; a parsed
word is still a maximal nonempty run of word characters, terminated by the
first character outside the class. -/
theorem c9_wordchar_amended :
    (∀ n, n < 128 → is_wordchar (Char.ofNat n) = spec_wordchar (Char.ofNat n)) ∧
    is_wordchar 'é' = true ∧
    (∀ context s w r, parse_word context s = .ok (w, r) →
      w ≠ [] ∧ w = s.takeWhile is_wordchar ∧
      (∀ c, ((s.dropWhile is_wordchar).head? = some c → is_wordchar c = false))) := by
  refine ⟨by decide, by decide, ?_⟩
  intro context s w r h
  unfold parse_word at h
  by_cases he : (s.takeWhile is_wordchar).isEmpty = true
  · rw [if_pos he] at h
    split at h <;> exact absurd h (by simp)
  · rw [if_neg he] at h
    simp only [Except.ok.injEq, Prod.mk.injEq] at h
    obtain ⟨hw, _⟩ := h
    refine ⟨?_, hw.symm, ?_⟩
    · rw [← hw]
      intro hc
      apply he
      rw [hc]
      rfl
    · intro c hc
      exact head_dropWhile_not is_wordchar s c hc

/-- Claim C9, witness: ASCII agreement at `a`, and maximal munch evaluated
on the word `ab` terminated by a comma. -/
theorem c9_wordchar_witness :
    is_wordchar (Char.ofNat 97) = spec_wordchar (Char.ofNat 97) ∧
    (("ab").data ≠ [] ∧ ("ab").data = (("ab,x").data).takeWhile is_wordchar ∧
      (∀ c, (((("ab,x").data).dropWhile is_wordchar).head? = some c →
        is_wordchar c = false))) :=
  ⟨(c9_wordchar_amended).1 97 (by decide),
   (c9_wordchar_amended).2.2 (("w").data) (("ab,x").data) (("ab").data)
     ((",x").data) rfl⟩

theorem args_lookup_remove (arg : Str) (m : Args) :
    args_lookup arg (args_remove arg m) = none := by
  induction m with
  | nil => rfl
  | cons p rest ih =>
    unfold args_remove at *
    rw [List.filter_cons]
    by_cases hp : p.1 = arg
    · rw [if_neg (by simp [hp])]
      exact ih
    · rw [if_pos (by simp [hp])]
      unfold args_lookup at *
      rw [List.find?_cons_of_neg _ (by simp [hp])]
      exact ih

/-- Claim C10: every argument-extraction operation removes a present entry
from the map even when it returns an error: the resulting map is always the
map with the entry removed, a subsequent lookup finds nothing, and a
subsequent extraction of the same name behaves as if the argument were
absent. -/
theorem c10_failed_extraction_consumes {T : Type} (parseT : Str → Except Str T)
    (arg : Str) (m : Args) (h : args_lookup arg m ≠ none) :
    (take_flag arg m).2 = args_remove arg m ∧
    (try_take_arg parseT arg m).2 = args_remove arg m ∧
    (take_arg parseT arg m).2 = args_remove arg m ∧
    (try_take_args parseT arg m).2 = args_remove arg m ∧
    (take_args parseT arg m).2 = args_remove arg m ∧
    args_lookup arg (args_remove arg m) = none ∧
    (try_take_arg parseT arg ((take_flag arg m).2)).1 = .ok none := by
  have h1 : (take_flag arg m).2 = args_remove arg m := by
    unfold take_flag
    cases args_lookup arg m with
    | none => rfl
    | some vs =>
      dsimp only
      split <;> rfl
  have h2 : (try_take_arg parseT arg m).2 = args_remove arg m := by
    unfold try_take_arg
    cases args_lookup arg m with
    | none => rfl
    | some vs =>
      match vs with
      | [] => rfl
      | [v] =>
        dsimp only
        cases parseT v <;> rfl
      | v :: w :: vs2 => rfl
  have h3 : (take_arg parseT arg m).2 = args_remove arg m := by
    unfold take_arg
    rcases htta : try_take_arg parseT arg m with ⟨res, m2⟩
    have hm2 : m2 = args_remove arg m := by
      rw [htta] at h2
      exact h2
    cases res with
    | ok o =>
      cases o with
      | none => exact hm2
      | some t => exact hm2
    | error e => exact hm2
  have h4 : (try_take_args parseT arg m).2 = args_remove arg m := by
    unfold try_take_args
    cases args_lookup arg m with
    | none => rfl
    | some vs =>
      dsimp only
      cases mapParse parseT vs <;> rfl
  have h5 : (take_args parseT arg m).2 = args_remove arg m := by
    unfold take_args
    rcases htta : try_take_args parseT arg m with ⟨res, m2⟩
    have hm2 : m2 = args_remove arg m := by
      rw [htta] at h4
      exact h4
    cases res with
    | ok o =>
      cases o with
      | none => exact hm2
      | some ts => exact hm2
    | error e => exact hm2
  have h7 : (try_take_arg parseT arg ((take_flag arg m).2)).1 = .ok none := by
    rw [h1]
    unfold try_take_arg
    rw [args_lookup_remove arg m]
  exact ⟨h1, h2, h3, h4, h5, args_lookup_remove arg m, h7⟩

/-- Claim C10, witness: the consumption behavior evaluated on a present
argument with two values (an arity error for the singular forms). -/
theorem c10_failed_extraction_witness :
    (take_flag (("x").data) [((("x").data), [("1").data, ("2").data])]).2 =
      args_remove (("x").data) [((("x").data), [("1").data, ("2").data])] ∧
    (try_take_arg (fun v => Except.ok v) (("x").data)
      [((("x").data), [("1").data, ("2").data])]).2 =
      args_remove (("x").data) [((("x").data), [("1").data, ("2").data])] ∧
    (take_arg (fun v => Except.ok v) (("x").data)
      [((("x").data), [("1").data, ("2").data])]).2 =
      args_remove (("x").data) [((("x").data), [("1").data, ("2").data])] ∧
    (try_take_args (fun v => Except.ok v) (("x").data)
      [((("x").data), [("1").data, ("2").data])]).2 =
      args_remove (("x").data) [((("x").data), [("1").data, ("2").data])] ∧
    (take_args (fun v => Except.ok v) (("x").data)
      [((("x").data), [("1").data, ("2").data])]).2 =
      args_remove (("x").data) [((("x").data), [("1").data, ("2").data])] ∧
    args_lookup (("x").data)
      (args_remove (("x").data) [((("x").data), [("1").data, ("2").data])]) = none ∧
    (try_take_arg (fun v => Except.ok v) (("x").data)
      ((take_flag (("x").data) [((("x").data), [("1").data, ("2").data])]).2)).1 =
      .ok none :=
  c10_failed_extraction_consumes (fun v => Except.ok v) (("x").data)
    [((("x").data), [("1").data, ("2").data])] (by decide)

end Datadriven
